import Mathlib

/-!
Verification of the SRT subtitle-translator core (`src/main.py`).

Python strings are modelled as `List Char`; the Python primitives used by the
program (`str.strip`, `str.split("\n\n")`, `str.split("\n")`, `"\n".join`,
`int(...)`, `str(int)`, substring containment) are embedded as executable
functions on `List Char` below.  The translation provider (googletrans), the
file system and the console are external collaborators and enter as explicit
parameters (a provider function, an input list, an abstract store state).
-/

namespace SubTrans

/-- Chars is the model of a Python `str`: its sequence of characters. -/
abbrev Chars := List Char

/-- isPyWS models Python's notion of ASCII whitespace as used by `str.strip()`
with no argument: space, tab, newline, carriage return, vertical tab, form feed.
(Python additionally strips some rare non-ASCII unicode spaces; none are
relevant to the SRT material handled by the program.) -/
def isPyWS (c : Char) : Bool :=
  c.toNat = 32 || c.toNat = 9 || c.toNat = 10 || c.toNat = 13 ||
    c.toNat = 11 || c.toNat = 12

/-- pyStrip models Python `s.strip()`: drop whitespace from both ends. -/
def pyStrip (s : Chars) : Chars :=
  ((s.dropWhile isPyWS).reverse.dropWhile isPyWS).reverse

/-- consHead prepends a character to the first piece of a split result. -/
def consHead (c : Char) : List Chars → List Chars
  | [] => [[c]]
  | l :: ls => (c :: l) :: ls

/-- splitNN models Python `s.split("\n\n")`: split on non-overlapping
occurrences of two consecutive newlines, scanning left to right. -/
def splitNN : Chars → List Chars
  | [] => [[]]
  | [c] => [[c]]
  | c1 :: c2 :: rest =>
    if c1 = '\n' ∧ c2 = '\n' then [] :: splitNN rest
    else consHead c1 (splitNN (c2 :: rest))

/-- splitLines models Python `s.split("\n")`. -/
def splitLines : Chars → List Chars
  | [] => [[]]
  | c :: rest =>
    if c = '\n' then [] :: splitLines rest else consHead c (splitLines rest)

/-- joinSep models Python `sep.join(pieces)`. -/
def joinSep (sep : Chars) : List Chars → Chars
  | [] => []
  | [l] => l
  | l :: ls => l ++ sep ++ joinSep sep ls

/-- isDigitC models the ASCII decimal digits `0`-`9` (Python `\d` on the
ASCII range, and the digits accepted by `int(...)`). -/
def isDigitC (c : Char) : Bool :=
  48 ≤ c.toNat && c.toNat ≤ 57

/-- digitVal is the numeric value of an ASCII digit character. -/
def digitVal (c : Char) : Nat := c.toNat - 48

/-- digitsToNat reads a string of ASCII digits as a base-10 number, the way
Python `int(...)` does once sign and whitespace are gone. -/
def digitsToNat (s : Chars) : Nat :=
  s.foldl (fun acc c => acc * 10 + digitVal c) 0

/-- natChars models Python `str(n)` for a natural number: its base-10 digits,
most significant first. -/
def natChars (n : Nat) : Chars :=
  if h : n < 10 then [Char.ofNat (48 + n)]
  else natChars (n / 10) ++ [Char.ofNat (48 + n % 10)]
  termination_by n
  decreasing_by exact Nat.div_lt_self (by omega) (by omega)

/-- intChars models Python `str(i)` for an arbitrary integer. -/
def intChars : Int → Chars
  | Int.ofNat m => natChars m
  | Int.negSucc m => '-' :: natChars (m + 1)

/-- parseDigits accepts a non-empty all-digit string and returns its value;
it is the digit part of Python `int(...)`. -/
def parseDigits (ds : Chars) : Option Nat :=
  if !ds.isEmpty && ds.all isDigitC then some (digitsToNat ds) else none

/-- pythonIntCore reads an optional sign and then one or more decimal
digits. -/
def pythonIntCore : Chars → Option Int
  | [] => none
  | c :: ds =>
    if c = '+' then (parseDigits ds).map Int.ofNat
    else if c = '-' then (parseDigits ds).map (fun n => -(n : Int))
    else (parseDigits (c :: ds)).map Int.ofNat

/-- pythonInt models Python `int(s)` on a string: strip whitespace, allow one
optional sign, then one or more decimal digits; anything else raises
`ValueError`, modelled as `none`.  (Python additionally accepts underscore
digit separators and non-ASCII decimal digits; those extensions only enlarge
the accepted set and play no role in the documents considered here.) -/
def pythonInt (s : Chars) : Option Int :=
  pythonIntCore (pyStrip s)

/-- Subtitle is the dictionary built per block by `parse_srt`
(`src/main.py:43-49`). -/
structure Subtitle where
  id : Int
  timing : Chars
  original_text : Chars
  translated_text : Chars
  needs_review : Bool
  deriving DecidableEq, Repr

instance : Inhabited Subtitle := ⟨⟨0, [], [], [], false⟩⟩

/-- parseBlocks is the block loop of `parse_srt` (`src/main.py:40-50`): a
block whose stripped line count is below 3 is skipped; otherwise
`int(lines[0])` is taken, and a `ValueError` there (modelled `Except.error`)
aborts the whole parse with no partial result. -/
def parseBlocks : List Chars → Except Unit (List Subtitle)
  | [] => .ok []
  | b :: bs =>
    match splitLines (pyStrip b) with
    | l0 :: l1 :: l2 :: rest =>
      match pythonInt l0 with
      | none => .error ()
      | some n =>
        (parseBlocks bs).map
          (fun subs => ⟨n, l1, joinSep ['\n'] (l2 :: rest), [], false⟩ :: subs)
    | _ => parseBlocks bs

/-- parse_srt models `SubtitleTranslator.parse_srt` (`src/main.py:32-52`)
applied to file content: `content.strip().split('\n\n')`, then the block
loop. -/
def parse_srt (content : Chars) : Except Unit (List Subtitle) :=
  parseBlocks (splitNN (pyStrip content))

/-- export_srt models `SubtitleTranslator.export_srt` (`src/main.py:96-102`):
the sequence of `f.write` calls, accumulated front to back. -/
def export_srt (subs : List Subtitle) : Chars :=
  subs.foldl
    (fun acc s =>
      acc ++ (intChars s.id ++ '\n' ::
        (s.timing ++ '\n' :: (s.translated_text ++ ['\n', '\n'])))) []

/-- Mem models the Python dict `translation_memory` as an association list in
insertion order; only exact-key lookup and overwrite-by-key are used. -/
abbrev Mem := List (Chars × Chars)

/-- memLookup models `text in memory` / `memory[text]`: exact-match lookup. -/
def memLookup (m : Mem) (k : Chars) : Option Chars :=
  match m with
  | [] => none
  | (k', v) :: rest => if k' = k then some v else memLookup rest k

/-- memInsert models `memory[text] = value`: overwrite-by-key, append when
absent. -/
def memInsert (m : Mem) (k v : Chars) : Mem :=
  match m with
  | [] => [(k, v)]
  | (k', v') :: rest =>
    if k' = k then (k, v) :: rest else (k', v') :: memInsert rest k v

/-- Provider is the external googletrans collaborator: the text to translate
either comes back translated or the call raises, carrying a cause. -/
abbrev Provider := Chars → Except Chars Chars

/-- placeholder is the string `f"[Translation Error: {text}]"` returned by
`translate_text` when the provider raises (`src/main.py:74`). -/
def placeholder (text : Chars) : Chars :=
  "[Translation Error: ".toList ++ text ++ [']']

/-- TransResult packages what one `translate_text` call did: the memory
afterwards, the returned string, and whether the provider was invoked. -/
structure TransResult where
  mem : Mem
  result : Chars
  providerCalled : Bool

/-- translate_text models `SubtitleTranslator.translate_text`
(`src/main.py:54-74`): whitespace-only text is returned as is; the memory is
consulted first; on a miss the provider is called, a success is stored in the
memory, and an exception is converted to the placeholder with the memory left
untouched. -/
def translate_text (provider : Provider) (mem : Mem) (text : Chars) :
    TransResult :=
  if (pyStrip text).isEmpty then ⟨mem, text, false⟩
  else
    match memLookup mem text with
    | some v => ⟨mem, v, false⟩
    | none =>
      match provider text with
      | .ok result => ⟨memInsert mem text result, result, true⟩
      | .error _ => ⟨mem, placeholder text, true⟩

/-- startsArrow tests whether a string begins with the three characters of the
timing-arrow marker. -/
def startsArrow : Chars → Bool
  | c1 :: c2 :: c3 :: _ => c1 = '-' && c2 = '-' && c3 = '>'
  | _ => false

/-- containsArrow models Python `'-->' in text`. -/
def containsArrow : Chars → Bool
  | [] => false
  | c :: rest => startsArrow (c :: rest) || containsArrow rest

/-- isStructural is the defensive check shared by `auto_translate_all` and
`interactive_review` (`src/main.py:82-84,115`): the entry text, stripped, is
purely numeric (`re.match(r'^\d+$', ...)`), or the text contains `-->`. -/
def isStructural (s : Subtitle) : Bool :=
  (let t := pyStrip s.original_text
   !t.isEmpty && t.all isDigitC) || containsArrow s.original_text

/-- auto_translate_all models `SubtitleTranslator.auto_translate_all`
(`src/main.py:76-94`): sequentially translate every non-structural entry,
mutating only its `translated_text`, threading the memory through. -/
def auto_translate_all (provider : Provider) (mem : Mem) :
    List Subtitle → Mem × List Subtitle
  | [] => (mem, [])
  | s :: rest =>
    if isStructural s then
      let r := auto_translate_all provider mem rest
      (r.1, s :: r.2)
    else
      let t := translate_text provider mem s.original_text
      let r := auto_translate_all provider t.mem rest
      (r.1, { s with translated_text := t.result } :: r.2)

/-- ReviewResult is the state when the `interactive_review` loop exits: the
(possibly edited) entries, the memory, the final cursor, the cursor positions
that were presented to the operator in order, and whether the run ended by
exhausting the operator input (Python would raise `EOFError` there). -/
structure ReviewResult where
  subs : List Subtitle
  mem : Mem
  i : Int
  presented : List Int
  eof : Bool
  deriving Repr

/-- ReviewStep is the effect of one presented entry on the review loop:
either the loop continues with updated entries, memory, remaining operator
input and cursor, or the session stops (`eof = true` when the operator input
ran dry, which in Python raises `EOFError` at the `input()` call). -/
inductive ReviewStep where
  | next (subs : List Subtitle) (mem : Mem) (rest : List Chars) (i : Int)
  | stop (eof : Bool)

/-- reviewDispatch models the menu dispatch of one presented entry in
`interactive_review` (`src/main.py:131-149`): one input line is consumed as
the stripped menu choice; choice 2 consumes a second input line as the
replacement text (stripped, ignored when empty; otherwise written to the
entry and put into the memory); choice 4 is `i = max(0, i - 1)`; choice 5
breaks; any unrecognized choice falls to the final `else` and advances. -/
def reviewDispatch (subs : List Subtitle) (mem : Mem) (i : Int)
    (inputs : List Chars) : ReviewStep :=
  match inputs with
  | [] => .stop true
  | inp :: rest =>
    let sub := subs.getD i.toNat default
    let choice := pyStrip inp
    if choice = ['1'] then .next subs mem rest (i + 1)
    else if choice = ['2'] then
      match rest with
      | [] => .stop true
      | new :: rest2 =>
        let newT := pyStrip new
        if newT.isEmpty then .next subs mem rest2 (i + 1)
        else
          .next (subs.set i.toNat { sub with translated_text := newT })
            (memInsert mem sub.original_text newT) rest2 (i + 1)
    else if choice = ['3'] then .next subs mem rest (i + 1)
    else if choice = ['4'] then .next subs mem rest (max 0 (i - 1))
    else if choice = ['5'] then .stop false
    else .next subs mem rest (i + 1)

theorem reviewDispatch_next_length {subs : List Subtitle} {mem : Mem}
    {i : Int} {inputs : List Chars} {subs' : List Subtitle} {mem' : Mem}
    {rest' : List Chars} {i' : Int}
    (h : reviewDispatch subs mem i inputs = .next subs' mem' rest' i') :
    rest'.length < inputs.length := by
  match inputs with
  | [] => simp [reviewDispatch] at h
  | inp :: rest =>
    rw [reviewDispatch.eq_def] at h
    simp only at h
    split_ifs at h
    · obtain ⟨-, -, rfl, -⟩ := h
      simp only [List.length_cons]; omega
    · match rest with
      | [] => simp at h
      | new :: rest2 =>
        simp only at h
        split_ifs at h
        · obtain ⟨-, -, rfl, -⟩ := h
          simp only [List.length_cons]; omega
        · obtain ⟨-, -, rfl, -⟩ := h
          simp only [List.length_cons]; omega
    · obtain ⟨-, -, rfl, -⟩ := h
      simp only [List.length_cons]; omega
    · obtain ⟨-, -, rfl, -⟩ := h
      simp only [List.length_cons]; omega
    · obtain ⟨-, -, rfl, -⟩ := h
      simp only [List.length_cons]; omega

/-- runReview models the `while i < len(subtitles)` loop of
`SubtitleTranslator.interactive_review` (`src/main.py:110-149`).  The cursor
`i` is a Python integer, so `Int`; structural entries are skipped without
consuming input; otherwise the entry is presented (its position recorded in
`presented`, since the code prints it before reading input) and the menu
dispatch is applied. -/
def runReview (subs : List Subtitle) (mem : Mem) (inputs : List Chars)
    (i : Int) (presented : List Int) : ReviewResult :=
  if hlt : i < (subs.length : Int) then
    if isStructural (subs.getD i.toNat default) then
      runReview subs mem inputs (i + 1) presented
    else
      match hstep : reviewDispatch subs mem i inputs with
      | .stop eof => ⟨subs, mem, i, presented ++ [i], eof⟩
      | .next subs' mem' rest' i' =>
        runReview subs' mem' rest' i' (presented ++ [i])
  else ⟨subs, mem, i, presented, false⟩
  termination_by (inputs.length, ((subs.length : Int) - i).toNat)
  decreasing_by
  · apply Prod.Lex.right; omega
  · exact Prod.Lex.left _ _ (reviewDispatch_next_length hstep)

/-- interactive_review models `SubtitleTranslator.interactive_review`
(`src/main.py:104-151`): the loop is entered at cursor 0 with nothing yet
presented.  (The trailing `save_memory()` is file output; the returned memory
is what it persists.) -/
def interactive_review (subs : List Subtitle) (mem : Mem)
    (inputs : List Chars) : ReviewResult :=
  runReview subs mem inputs 0 []

/-- CorruptStore marks a persisted memory file that is present but does not
parse as JSON. -/
inductive CorruptStore where
  | corruptStore
  deriving DecidableEq, Repr

/-- load_memory models `SubtitleTranslator.load_memory` (`src/main.py:19-25`)
with the file system abstracted: `none` is a missing file (Python
`FileNotFoundError`, caught, giving `{}`), `some content` is the file's text,
fed to `json.load`, abstracted as the `jsonLoad` parameter; a failing
`json.load` raises `json.JSONDecodeError`, which `load_memory` does not catch,
so the error propagates to the caller. -/
def load_memory (jsonLoad : Chars → Option Mem) (file : Option Chars) :
    Except CorruptStore Mem :=
  match file with
  | none => .ok []
  | some content =>
    match jsonLoad content with
    | some m => .ok m
    | none => .error .corruptStore

/-- RawBlock is the abstract content of one well-formed SRT block: a positive
sequence id, a timing line and the text lines. -/
structure RawBlock where
  id : Nat
  timing : Chars
  textLines : List Chars
  deriving DecidableEq

/-- renderBlock lays a raw block out as its lines joined by newlines, the id
line rendered canonically. -/
def renderBlock (b : RawBlock) : Chars :=
  joinSep ['\n'] (natChars b.id :: b.timing :: b.textLines)

/-- renderDoc lays blocks out separated by one blank line each. -/
def renderDoc (bs : List RawBlock) : Chars :=
  joinSep ['\n', '\n'] (bs.map renderBlock)

/-- toSubtitle is the entry that parsing a well-formed block produces. -/
def toSubtitle (b : RawBlock) : Subtitle :=
  ⟨(b.id : Int), b.timing, joinSep ['\n'] b.textLines, [], false⟩

/-- GoodBlock is well-formedness of one block: positive id, a non-empty
single-line timing, at least one text line, every text line non-empty and
newline-free, and the block not ending in whitespace (trailing whitespace on
the last line would be eaten by `block.strip()`). -/
def GoodBlock (b : RawBlock) : Prop :=
  1 ≤ b.id ∧
    b.timing ≠ [] ∧ '\n' ∉ b.timing ∧
    b.textLines ≠ [] ∧
    (∀ l ∈ b.textLines, l ≠ [] ∧ '\n' ∉ l) ∧
    (b.textLines.getLastD []).getLast?.map isPyWS = some false

instance (b : RawBlock) : Decidable (GoodBlock b) := by
  unfold GoodBlock; infer_instance

/-- WellFormedDoc says the document is a non-empty sequence of well-formed
blocks separated by single blank lines, followed by trailing whitespace only
(for example the conventional final newlines). -/
def WellFormedDoc (doc : Chars) : Prop :=
  ∃ bs tail, bs ≠ [] ∧ (∀ b ∈ bs, GoodBlock b) ∧ tail.all isPyWS ∧
    doc = renderDoc bs ++ tail

/-! ### Helper lemmas -/

theorem memLookup_memInsert_self (m : Mem) (k v : Chars) :
    memLookup (memInsert m k v) k = some v := by
  induction m with
  | nil => simp [memInsert, memLookup]
  | cons kv rest ih =>
    obtain ⟨k', v'⟩ := kv
    by_cases h : k' = k
    · simp [memInsert, memLookup, h]
    · simp [memInsert, memLookup, h, ih]

/-- failProvider is a concrete always-failing provider used by witnesses. -/
def failProvider : Provider := fun _ => .error []

/-- okProvider is a concrete always-succeeding provider used by witnesses. -/
def okProvider : Provider := fun t => .ok ('X' :: t)

/-! ### C10: the auto-translate pass only writes `translated_text` -/

/-- Claim C10: the auto-translate pass mutates only the translated_text
field: for every entry the id, timing, original_text and needs_review fields
are unchanged after the pass, and the entry sequence keeps its length and
order. -/
theorem claim_C10_auto_translate_frame (provider : Provider) (mem : Mem)
    (subs : List Subtitle) :
    ((auto_translate_all provider mem subs).2).length = subs.length ∧
    ((auto_translate_all provider mem subs).2).map Subtitle.id =
      subs.map Subtitle.id ∧
    ((auto_translate_all provider mem subs).2).map Subtitle.timing =
      subs.map Subtitle.timing ∧
    ((auto_translate_all provider mem subs).2).map Subtitle.original_text =
      subs.map Subtitle.original_text ∧
    ((auto_translate_all provider mem subs).2).map Subtitle.needs_review =
      subs.map Subtitle.needs_review := by
  induction subs generalizing mem with
  | nil => simp [auto_translate_all]
  | cons s rest ih =>
    by_cases h : isStructural s
    · simpa [auto_translate_all, h] using ih mem
    · simpa [auto_translate_all, h] using
        ih (translate_text provider mem s.original_text).mem

/-! ### C7: loading the persisted memory -/

/-- Claim C7: load returns the empty mapping when the persisted store does
not exist, and fails with a CorruptStore error — which the caller may catch
and treat as empty — when the store is present but unparsable. -/
theorem claim_C7_load_memory (jsonLoad : Chars → Option Mem) (content : Chars)
    (hbad : jsonLoad content = none) :
    load_memory jsonLoad none = .ok [] ∧
    load_memory jsonLoad (some content) = .error .corruptStore := by
  refine ⟨rfl, ?_⟩
  simp [load_memory, hbad]

theorem claim_C7_witness :
    ((fun _ => none : Chars → Option Mem) [] = none) ∧
    (load_memory (fun _ => none) none = .ok [] ∧
      load_memory (fun _ => none) (some []) = .error .corruptStore) :=
  ⟨rfl, claim_C7_load_memory (fun _ => none) [] rfl⟩

/-! ### C3: provider failure is contained and never cached -/

/-- Claim C3: when the provider fails for an entry's text, the entry's
translated_text becomes the visibly-marked placeholder built from the
original text, the memory is left untouched (so the failed text is never
inserted), the pass continues processing subsequent entries from that same
memory, and a later pass over the same text calls the provider again instead
of reusing the placeholder. -/
theorem claim_C3_failure_isolation (provider : Provider) (mem : Mem)
    (text err : Chars)
    (hws : (pyStrip text).isEmpty = false)
    (hmiss : memLookup mem text = none)
    (hfail : provider text = .error err) :
    translate_text provider mem text = ⟨mem, placeholder text, true⟩ ∧
    placeholder text = "[Translation Error: ".toList ++ text ++ [']'] ∧
    (∀ (s : Subtitle) (rest : List Subtitle), s.original_text = text →
      isStructural s = false →
      auto_translate_all provider mem (s :: rest) =
        ((auto_translate_all provider mem rest).1,
          { s with translated_text := placeholder text } ::
            (auto_translate_all provider mem rest).2)) ∧
    (∀ (provider2 : Provider) (v : Chars), provider2 text = .ok v →
      translate_text provider2 mem text = ⟨memInsert mem text v, v, true⟩) := by
  have htt : translate_text provider mem text = ⟨mem, placeholder text, true⟩ := by
    simp [translate_text, hws, hmiss, hfail]
  refine ⟨htt, rfl, ?_, ?_⟩
  · intro s rest hor hns
    simp [auto_translate_all, hns, hor, htt]
  · intro provider2 v hok
    simp [translate_text, hws, hmiss, hok]

theorem claim_C3_witness :
    ((pyStrip ['H', 'i']).isEmpty = false ∧
      memLookup [] ['H', 'i'] = none ∧
      failProvider ['H', 'i'] = .error []) ∧
    translate_text failProvider [] ['H', 'i'] =
      ⟨[], placeholder ['H', 'i'], true⟩ := by
  refine ⟨⟨by decide, rfl, rfl⟩, ?_⟩
  exact (claim_C3_failure_isolation failProvider [] ['H', 'i'] []
    (by decide) rfl rfl).1

/-! ### C4: cache idempotence only holds when the provider succeeds -/

/-- Claim C4 counterexample: with a provider that fails on the text, both of
two successive translations of the same text in one pass invoke the provider,
so the provider is called twice, not at most once; the failure placeholder is
never served from memory. -/
theorem claim_C4_counterexample :
    (translate_text failProvider [] ['H', 'i']).providerCalled = true ∧
    (translate_text failProvider
        (translate_text failProvider [] ['H', 'i']).mem
        ['H', 'i']).providerCalled = true := by
  decide

/-- Claim C4 as amended: provided the provider call for the text does not
fail, translating the same source_text twice in one pass calls the provider
at most once; the second translation is served from the translation memory
and yields a result identical to the first, leaving the memory unchanged. -/
theorem claim_C4_cache_idempotence (provider : Provider) (mem : Mem)
    (text : Chars) (hok : ∀ err, provider text ≠ .error err) :
    (cond (translate_text provider mem text).providerCalled 1 0) +
      (cond (translate_text provider
        (translate_text provider mem text).mem text).providerCalled 1 0) ≤ 1 ∧
    (translate_text provider
        (translate_text provider mem text).mem text).providerCalled = false ∧
    (translate_text provider (translate_text provider mem text).mem
        text).result = (translate_text provider mem text).result ∧
    (translate_text provider (translate_text provider mem text).mem
        text).mem = (translate_text provider mem text).mem := by
  by_cases hws : (pyStrip text).isEmpty
  · simp [translate_text, hws]
  · cases hmiss : memLookup mem text with
    | some v => simp [translate_text, hws, hmiss]
    | none =>
      cases hp : provider text with
      | error err => exact absurd hp (hok err)
      | ok v =>
        have h1 : translate_text provider mem text =
            ⟨memInsert mem text v, v, true⟩ := by
          simp [translate_text, hws, hmiss, hp]
        rw [h1]
        simp [translate_text, hws, memLookup_memInsert_self]

theorem claim_C4_witness :
    (∀ err : Chars, okProvider ['H', 'i'] ≠ .error err) ∧
    ((cond (translate_text okProvider [] ['H', 'i']).providerCalled 1 0) +
      (cond (translate_text okProvider
        (translate_text okProvider [] ['H', 'i']).mem
        ['H', 'i']).providerCalled 1 0) ≤ 1 ∧
    (translate_text okProvider
        (translate_text okProvider [] ['H', 'i']).mem
        ['H', 'i']).providerCalled = false ∧
    (translate_text okProvider (translate_text okProvider [] ['H', 'i']).mem
        ['H', 'i']).result = (translate_text okProvider [] ['H', 'i']).result ∧
    (translate_text okProvider (translate_text okProvider [] ['H', 'i']).mem
        ['H', 'i']).mem = (translate_text okProvider [] ['H', 'i']).mem) := by
  refine ⟨fun _ h => (nomatch h), ?_⟩
  exact claim_C4_cache_idempotence okProvider [] ['H', 'i']
    (fun _ h => (nomatch h))

/-! ### C8: shape of the serialized output -/

/-- specSerializeBlock follows the spec's words for one entry: the
sequence-id line, the timing line, the translated_text line(s), each line
newline-terminated, followed by exactly one blank separator line. -/
def specSerializeBlock (s : Subtitle) : Chars :=
  intChars s.id ++ ['\n'] ++ s.timing ++ ['\n'] ++
    s.translated_text ++ ['\n'] ++ ['\n']

/-- specSerialize follows the spec's words (§4.1 Serialize): emit the blocks
of all entries in sequence order. -/
def specSerialize (subs : List Subtitle) : Chars :=
  (subs.map specSerializeBlock).flatten

theorem foldl_append_eq_flatten {α : Type} (f : α → Chars) (l : List α)
    (acc : Chars) :
    l.foldl (fun a x => a ++ f x) acc = acc ++ (l.map f).flatten := by
  induction l generalizing acc with
  | nil => simp
  | cons x xs ih => simp [ih, List.append_assoc]

theorem export_srt_eq_specSerialize (subs : List Subtitle) :
    export_srt subs = specSerialize subs := by
  have h := foldl_append_eq_flatten specSerializeBlock subs []
  simp only [List.nil_append] at h
  rw [export_srt, specSerialize]
  have hfn : (fun (acc : Chars) (s : Subtitle) =>
      acc ++ (intChars s.id ++ '\n' ::
        (s.timing ++ '\n' :: (s.translated_text ++ ['\n', '\n'])))) =
      fun (acc : Chars) (s : Subtitle) => acc ++ specSerializeBlock s := by
    funext a s
    simp [specSerializeBlock]
  rw [hfn, h]

/-- Claim C8: serialize emits, for every entry in order, the sequence-id
line, the timing line, and the translated_text lines, terminating every block
with exactly one blank line including the last; an entry whose
translated_text is empty emits an empty text segment — the output does not
depend on its source text. -/
theorem claim_C8_serialize_shape :
    (∀ subs : List Subtitle, export_srt subs = specSerialize subs) ∧
    (∀ (n : Int) (t orig : Chars) (nr : Bool),
      export_srt [⟨n, t, orig, [], nr⟩] =
        intChars n ++ '\n' :: (t ++ ['\n', '\n', '\n'])) ∧
    (∀ (subs : List Subtitle) (s : Subtitle), ∃ body,
      export_srt (subs ++ [s]) = body ++ ['\n', '\n']) := by
  refine ⟨export_srt_eq_specSerialize, ?_, ?_⟩
  · intro n t orig nr
    simp [export_srt]
  · intro subs s
    refine ⟨export_srt subs ++ intChars s.id ++ ['\n'] ++ s.timing ++ ['\n'] ++
      s.translated_text, ?_⟩
    rw [export_srt_eq_specSerialize, export_srt_eq_specSerialize,
      specSerialize, specSerialize]
    simp [specSerializeBlock, List.append_assoc]

/-! ### Review-loop step lemmas -/

theorem runReview_exit (subs : List Subtitle) (mem : Mem) (inputs : List Chars)
    (i : Int) (pres : List Int) (h : ¬ i < (subs.length : Int)) :
    runReview subs mem inputs i pres = ⟨subs, mem, i, pres, false⟩ := by
  rw [runReview.eq_def, dif_neg h]

theorem runReview_structural (subs : List Subtitle) (mem : Mem)
    (inputs : List Chars) (i : Int) (pres : List Int)
    (h : i < (subs.length : Int))
    (hs : isStructural (subs.getD i.toNat default) = true) :
    runReview subs mem inputs i pres =
      runReview subs mem inputs (i + 1) pres := by
  rw [runReview.eq_def, dif_pos h]
  simp only [hs, if_true]

theorem runReview_next (subs : List Subtitle) (mem : Mem) (inputs : List Chars)
    (i : Int) (pres : List Int) (subs' : List Subtitle) (mem' : Mem)
    (rest' : List Chars) (i' : Int)
    (h : i < (subs.length : Int))
    (hs : isStructural (subs.getD i.toNat default) = false)
    (hd : reviewDispatch subs mem i inputs = .next subs' mem' rest' i') :
    runReview subs mem inputs i pres =
      runReview subs' mem' rest' i' (pres ++ [i]) := by
  rw [runReview.eq_def, dif_pos h]
  simp only [hs, Bool.false_eq_true, if_false]
  split
  · next eof heq => rw [hd] at heq; exact ReviewStep.noConfusion heq
  · next s2 m2 r2 i2 heq =>
    rw [hd] at heq
    cases heq
    rfl

theorem runReview_stop (subs : List Subtitle) (mem : Mem) (inputs : List Chars)
    (i : Int) (pres : List Int) (eof : Bool)
    (h : i < (subs.length : Int))
    (hs : isStructural (subs.getD i.toNat default) = false)
    (hd : reviewDispatch subs mem i inputs = .stop eof) :
    runReview subs mem inputs i pres = ⟨subs, mem, i, pres ++ [i], eof⟩ := by
  rw [runReview.eq_def, dif_pos h]
  simp only [hs, Bool.false_eq_true, if_false]
  split
  · next eof2 heq => rw [hd] at heq; cases heq; rfl
  · next s2 m2 r2 i2 heq => rw [hd] at heq; exact ReviewStep.noConfusion heq

theorem reviewDispatch_nil (subs : List Subtitle) (mem : Mem) (i : Int) :
    reviewDispatch subs mem i [] = .stop true := rfl

theorem reviewDispatch_accept (subs : List Subtitle) (mem : Mem) (i : Int)
    (inp : Chars) (rest : List Chars) (hc : pyStrip inp = ['1']) :
    reviewDispatch subs mem i (inp :: rest) = .next subs mem rest (i + 1) := by
  simp [reviewDispatch, hc]

theorem reviewDispatch_skip (subs : List Subtitle) (mem : Mem) (i : Int)
    (inp : Chars) (rest : List Chars) (hc : pyStrip inp = ['3']) :
    reviewDispatch subs mem i (inp :: rest) = .next subs mem rest (i + 1) := by
  simp [reviewDispatch, hc]

theorem reviewDispatch_back (subs : List Subtitle) (mem : Mem) (i : Int)
    (inp : Chars) (rest : List Chars) (hc : pyStrip inp = ['4']) :
    reviewDispatch subs mem i (inp :: rest) =
      .next subs mem rest (max 0 (i - 1)) := by
  simp [reviewDispatch, hc]

theorem reviewDispatch_finish (subs : List Subtitle) (mem : Mem) (i : Int)
    (inp : Chars) (rest : List Chars) (hc : pyStrip inp = ['5']) :
    reviewDispatch subs mem i (inp :: rest) = .stop false := by
  simp [reviewDispatch, hc]

theorem reviewDispatch_other (subs : List Subtitle) (mem : Mem) (i : Int)
    (inp : Chars) (rest : List Chars)
    (h1 : pyStrip inp ≠ ['1']) (h2 : pyStrip inp ≠ ['2'])
    (h3 : pyStrip inp ≠ ['3']) (h4 : pyStrip inp ≠ ['4'])
    (h5 : pyStrip inp ≠ ['5']) :
    reviewDispatch subs mem i (inp :: rest) = .next subs mem rest (i + 1) := by
  simp [reviewDispatch, h1, h2, h3, h4, h5]

theorem reviewDispatch_next_inv {subs : List Subtitle} {mem : Mem} {i : Int}
    {inputs : List Chars} {subs' : List Subtitle} {mem' : Mem}
    {rest' : List Chars} {i' : Int}
    (h : reviewDispatch subs mem i inputs = .next subs' mem' rest' i') :
    (subs' = subs ∨ ∃ t, subs' = subs.set i.toNat
      { subs.getD i.toNat default with translated_text := t }) ∧
    (i' = i + 1 ∨ i' = max 0 (i - 1)) := by
  match inputs with
  | [] => simp [reviewDispatch] at h
  | inp :: rest =>
    rw [reviewDispatch.eq_def] at h
    simp only at h
    split_ifs at h
    · obtain ⟨rfl, -, -, rfl⟩ := h
      exact ⟨Or.inl rfl, Or.inl rfl⟩
    · match rest with
      | [] => simp at h
      | new :: rest2 =>
        simp only at h
        split_ifs at h
        · obtain ⟨rfl, -, -, rfl⟩ := h
          exact ⟨Or.inl rfl, Or.inl rfl⟩
        · obtain ⟨rfl, -, -, rfl⟩ := h
          exact ⟨Or.inr ⟨pyStrip new, rfl⟩, Or.inl rfl⟩
    · obtain ⟨rfl, -, -, rfl⟩ := h
      exact ⟨Or.inl rfl, Or.inl rfl⟩
    · obtain ⟨rfl, -, -, rfl⟩ := h
      exact ⟨Or.inl rfl, Or.inr rfl⟩
    · obtain ⟨rfl, -, -, rfl⟩ := h
      exact ⟨Or.inl rfl, Or.inl rfl⟩

/-! ### C6: review cursor bounds and structural skipping -/

/-- PresentedOK subs j: cursor position j is in bounds and holds a
non-structural entry of subs. -/
def PresentedOK (subs : List Subtitle) (j : Int) : Prop :=
  0 ≤ j ∧ j < (subs.length : Int) ∧
    isStructural (subs.getD j.toNat default) = false

theorem isStructural_set_translated (subs : List Subtitle) (n : Nat)
    (t : Chars) (j : Nat) :
    isStructural ((subs.set n
        { subs.getD n default with translated_text := t }).getD j default) =
      isStructural (subs.getD j default) := by
  by_cases hj : j = n
  · subst hj
    by_cases hlen : j < subs.length
    · simp [List.getD_eq_getElem?_getD, List.getElem?_set_self hlen,
        isStructural]
    · rw [List.set_eq_of_length_le (by omega)]
  · simp [List.getD_eq_getElem?_getD, List.getElem?_set_ne (by omega : n ≠ j)]

theorem PresentedOK_set_translated (subs : List Subtitle) (n : Nat)
    (t : Chars) (j : Int) :
    PresentedOK (subs.set n { subs.getD n default with translated_text := t })
      j ↔ PresentedOK subs j := by
  unfold PresentedOK
  rw [List.length_set, isStructural_set_translated]

theorem runReview_invariant :
    ∀ (subs : List Subtitle) (mem : Mem) (inputs : List Chars) (i : Int)
      (pres : List Int), 0 ≤ i → (∀ j ∈ pres, PresentedOK subs j) →
      0 ≤ (runReview subs mem inputs i pres).i ∧
      ∀ j ∈ (runReview subs mem inputs i pres).presented,
        PresentedOK subs j := by
  intro subs mem inputs i pres
  induction subs, mem, inputs, i, pres using runReview.induct with
  | case1 subs mem inputs i pres hlt hs ih =>
    intro hi hpres
    rw [runReview_structural subs mem inputs i pres hlt hs]
    exact ih (by omega) hpres
  | case2 subs mem inputs i pres hlt hs eof hd =>
    intro hi hpres
    rw [runReview_stop subs mem inputs i pres eof hlt (by simpa using hs) hd]
    refine ⟨hi, ?_⟩
    intro j hj
    rcases List.mem_append.1 hj with hj | hj
    · exact hpres j hj
    · simp only [List.mem_singleton] at hj
      subst hj
      exact ⟨hi, hlt, by simpa using hs⟩
  | case3 subs mem inputs i pres hlt hs subs' mem' rest' i' hd ih =>
    intro hi hpres
    rw [runReview_next subs mem inputs i pres subs' mem' rest' i' hlt
      (by simpa using hs) hd]
    obtain ⟨hsubs, hi'⟩ := reviewDispatch_next_inv hd
    have hPOK : ∀ j, (PresentedOK subs' j ↔ PresentedOK subs j) := by
      intro j
      rcases hsubs with rfl | ⟨t, rfl⟩
      · exact Iff.rfl
      · exact PresentedOK_set_translated subs i.toNat t j
    have hi2 : 0 ≤ i' := by
      rcases hi' with rfl | rfl
      · omega
      · exact le_max_left 0 (i - 1)
    have hpres2 : ∀ j ∈ pres ++ [i], PresentedOK subs' j := by
      intro j hj
      rcases List.mem_append.1 hj with hj | hj
      · exact (hPOK j).2 (hpres j hj)
      · simp only [List.mem_singleton] at hj
        subst hj
        exact (hPOK j).2 ⟨hi, hlt, by simpa using hs⟩
    obtain ⟨hr1, hr2⟩ := ih hi2 hpres2
    exact ⟨hr1, fun j hj => (hPOK j).1 (hr2 j hj)⟩
  | case4 subs mem inputs i pres hlt =>
    intro hi hpres
    rw [runReview_exit subs mem inputs i pres hlt]
    exact ⟨hi, hpres⟩

/-- Claim C6: in a review session over entries indexed [0, N): the cursor
positions ever presented are in bounds and non-structural (structural entries
are never presented, also when reached via Back, and the final cursor never
goes below 0); from position N-1 a non-structural Accept terminates the
session with i = N; Back moves the cursor to max 0 (i-1), never below 0. -/
theorem claim_C6_review_cursor :
    (∀ (subs : List Subtitle) (mem : Mem) (inputs : List Chars),
      0 ≤ (interactive_review subs mem inputs).i ∧
      ∀ j ∈ (interactive_review subs mem inputs).presented,
        0 ≤ j ∧ j < (subs.length : Int) ∧
          isStructural (subs.getD j.toNat default) = false) ∧
    (∀ (subs : List Subtitle) (mem : Mem) (pres : List Int)
      (rest : List Chars), subs ≠ [] →
      isStructural (subs.getD (subs.length - 1) default) = false →
      runReview subs mem (['1'] :: rest) ((subs.length : Int) - 1) pres =
        ⟨subs, mem, (subs.length : Int),
          pres ++ [(subs.length : Int) - 1], false⟩) ∧
    (∀ (subs : List Subtitle) (mem : Mem) (i : Int) (pres : List Int)
      (rest : List Chars), 0 ≤ i → i < (subs.length : Int) →
      isStructural (subs.getD i.toNat default) = false →
      runReview subs mem (['4'] :: rest) i pres =
        runReview subs mem rest (max 0 (i - 1)) (pres ++ [i]) ∧
        0 ≤ max 0 (i - 1)) := by
  refine ⟨?_, ?_, ?_⟩
  · intro subs mem inputs
    exact runReview_invariant subs mem inputs 0 [] le_rfl (by simp)
  · intro subs mem pres rest hne hs
    have hlen : 1 ≤ subs.length := by
      cases subs with
      | nil => exact absurd rfl hne
      | cons a l => simp
    have hlt : (subs.length : Int) - 1 < (subs.length : Int) := by omega
    have htn : ((subs.length : Int) - 1).toNat = subs.length - 1 := by omega
    rw [runReview_next subs mem (['1'] :: rest)
      ((subs.length : Int) - 1) pres subs mem rest ((subs.length : Int) - 1 + 1)
      hlt (by rw [htn]; exact hs)
      (reviewDispatch_accept subs mem ((subs.length : Int) - 1) ['1'] rest
        (by decide))]
    rw [runReview_exit subs mem rest ((subs.length : Int) - 1 + 1)
      (pres ++ [(subs.length : Int) - 1]) (by omega)]
    have : (subs.length : Int) - 1 + 1 = (subs.length : Int) := by ring
    rw [this]
  · intro subs mem i pres rest hi hlt hs
    refine ⟨?_, le_max_left 0 (i - 1)⟩
    exact runReview_next subs mem (['4'] :: rest) i pres subs mem rest
      (max 0 (i - 1)) hlt hs
      (reviewDispatch_back subs mem i ['4'] rest (by decide))

/-- demoSubs is a one-entry subtitle list used by witnesses. -/
def demoSubs : List Subtitle := [⟨1, ['T'], ['H', 'i'], [], false⟩]

theorem claim_C6_witness :
    (demoSubs ≠ [] ∧
      isStructural (demoSubs.getD (demoSubs.length - 1) default) = false) ∧
    runReview demoSubs [] (['1'] :: []) ((demoSubs.length : Int) - 1) [] =
      ⟨demoSubs, [], (demoSubs.length : Int),
        [] ++ [(demoSubs.length : Int) - 1], false⟩ := by
  refine ⟨⟨by decide, by decide⟩, ?_⟩
  exact claim_C6_review_cursor.2.1 demoSubs [] [] [] (by decide) (by decide)

/-! ### C9: unrecognized menu input behaves exactly like Skip -/

/-- Claim C9: at a presented entry, any operator input whose stripped form is
none of the five recognized choices advances the cursor by one with subtitles
and memory unchanged, exactly as the Skip choice does. -/
theorem claim_C9_unrecognized_input (subs : List Subtitle) (mem : Mem)
    (i : Int) (pres : List Int) (inp : Chars) (rest : List Chars)
    (hlt : i < (subs.length : Int))
    (hs : isStructural (subs.getD i.toNat default) = false)
    (h1 : pyStrip inp ≠ ['1']) (h2 : pyStrip inp ≠ ['2'])
    (h3 : pyStrip inp ≠ ['3']) (h4 : pyStrip inp ≠ ['4'])
    (h5 : pyStrip inp ≠ ['5']) :
    runReview subs mem (inp :: rest) i pres =
      runReview subs mem rest (i + 1) (pres ++ [i]) ∧
    runReview subs mem (inp :: rest) i pres =
      runReview subs mem (['3'] :: rest) i pres := by
  have hother := reviewDispatch_other subs mem i inp rest h1 h2 h3 h4 h5
  have hstep := runReview_next subs mem (inp :: rest) i pres subs mem rest
    (i + 1) hlt hs hother
  refine ⟨hstep, ?_⟩
  rw [hstep, runReview_next subs mem (['3'] :: rest) i pres subs mem rest
    (i + 1) hlt hs (reviewDispatch_skip subs mem i ['3'] rest (by decide))]

theorem claim_C9_witness :
    ((0 : Int) < (demoSubs.length : Int) ∧
      isStructural (demoSubs.getD (0 : Int).toNat default) = false ∧
      pyStrip ['7'] ≠ ['1'] ∧ pyStrip ['7'] ≠ ['2'] ∧ pyStrip ['7'] ≠ ['3'] ∧
      pyStrip ['7'] ≠ ['4'] ∧ pyStrip ['7'] ≠ ['5']) ∧
    (runReview demoSubs [] (['7'] :: []) 0 [] =
      runReview demoSubs [] [] (0 + 1) ([] ++ [0]) ∧
    runReview demoSubs [] (['7'] :: []) 0 [] =
      runReview demoSubs [] (['3'] :: []) 0 []) := by
  refine ⟨⟨by decide, by decide, by decide, by decide, by decide, by decide,
    by decide⟩, ?_⟩
  exact claim_C9_unrecognized_input demoSubs [] 0 [] ['7'] [] (by decide)
    (by decide) (by decide) (by decide) (by decide) (by decide) (by decide)

/-! ### C5: malformed blocks are skipped, malformed ids abort the parse -/

theorem parseBlocks_skip_short (pre post : List Chars) (block : Chars)
    (hshort : (splitLines (pyStrip block)).length < 3) :
    parseBlocks (pre ++ block :: post) = parseBlocks (pre ++ post) := by
  induction pre with
  | nil =>
    rcases h : splitLines (pyStrip block) with _ | ⟨l0, _ | ⟨l1, _ | ⟨l2, rest⟩⟩⟩
    · simp [parseBlocks, h]
    · simp [parseBlocks, h]
    · simp [parseBlocks, h]
    · rw [h] at hshort
      simp only [List.length_cons] at hshort
      omega
  | cons b bs ih =>
    rcases hb : splitLines (pyStrip b) with _ | ⟨l0, _ | ⟨l1, _ | ⟨l2, rest⟩⟩⟩
    · simp [parseBlocks, hb, ih]
    · simp [parseBlocks, hb, ih]
    · simp [parseBlocks, hb, ih]
    · rcases hint : pythonInt l0 with _ | n
      · simp [parseBlocks, hb, hint]
      · simp [parseBlocks, hb, hint, ih]

theorem parseBlocks_error_of_bad_id (pre post : List Chars) (block : Chars)
    (l0 l1 l2 : Chars) (rest : List Chars)
    (hshape : splitLines (pyStrip block) = l0 :: l1 :: l2 :: rest)
    (hbad : pythonInt l0 = none) :
    parseBlocks (pre ++ block :: post) = .error () := by
  induction pre with
  | nil => simp [parseBlocks, hshape, hbad]
  | cons b bs ih =>
    rcases hb : splitLines (pyStrip b) with _ | ⟨m0, _ | ⟨m1, _ | ⟨m2, mrest⟩⟩⟩
    · simp [parseBlocks, hb, ih]
    · simp [parseBlocks, hb, ih]
    · simp [parseBlocks, hb, ih]
    · rcases hint : pythonInt m0 with _ | n
      · simp [parseBlocks, hb, hint]
      · simp [parseBlocks, hb, hint, ih, Except.map]

/-- Claim C5: a block whose stripped content has fewer than three lines is
skipped, producing no entry and no error; a block of sufficient shape whose
first line does not parse as an integer makes the whole parse fail (the
`Except.error` result carries no partial entry sequence); and `parse_srt` is
exactly this block loop applied to the blank-line split of the stripped
document. -/
theorem claim_C5_parse_error_policy :
    (∀ (pre post : List Chars) (block : Chars),
      (splitLines (pyStrip block)).length < 3 →
      parseBlocks (pre ++ block :: post) = parseBlocks (pre ++ post)) ∧
    (∀ (pre post : List Chars) (block : Chars) (l0 l1 l2 : Chars)
      (rest : List Chars),
      splitLines (pyStrip block) = l0 :: l1 :: l2 :: rest →
      pythonInt l0 = none →
      parseBlocks (pre ++ block :: post) = .error ()) ∧
    (∀ content : Chars,
      parse_srt content = parseBlocks (splitNN (pyStrip content))) :=
  ⟨parseBlocks_skip_short, parseBlocks_error_of_bad_id, fun _ => rfl⟩

theorem claim_C5_witness :
    ((splitLines (pyStrip "orphan".toList)).length < 3 ∧
      splitLines (pyStrip "x\nT\ntext".toList) =
        [['x'], ['T'], ['t', 'e', 'x', 't']] ∧
      pythonInt ['x'] = none) ∧
    (parseBlocks ["1\nT\nHi".toList, "orphan".toList] =
      parseBlocks ["1\nT\nHi".toList] ∧
    parseBlocks ["1\nT\nHi".toList, "x\nT\ntext".toList] = .error ()) := by
  refine ⟨⟨by decide, by decide, by decide⟩, ?_, ?_⟩
  · exact claim_C5_parse_error_policy.1 ["1\nT\nHi".toList] [] "orphan".toList
      (by decide)
  · exact claim_C5_parse_error_policy.2.1 ["1\nT\nHi".toList] []
      "x\nT\ntext".toList ['x'] ['T'] ['t', 'e', 'x', 't'] [] (by decide)
      (by decide)

/-! ### Digit and decimal-representation lemmas -/

theorem isDigitC_not_ws {c : Char} (h : isDigitC c = true) :
    isPyWS c = false := by
  simp only [isDigitC, Bool.and_eq_true, decide_eq_true_eq] at h
  simp only [isPyWS, Bool.or_eq_false_iff, decide_eq_false_iff_not]
  omega

theorem isDigitC_ne_nl {c : Char} (h : isDigitC c = true) : c ≠ '\n' := by
  intro hc
  subst hc
  exact absurd h (by decide)

theorem isDigitC_ne_plus {c : Char} (h : isDigitC c = true) : c ≠ '+' := by
  intro hc
  subst hc
  exact absurd h (by decide)

theorem isDigitC_ne_minus {c : Char} (h : isDigitC c = true) : c ≠ '-' := by
  intro hc
  subst hc
  exact absurd h (by decide)

theorem digit_isDigitC {d : Nat} (h : d < 10) :
    isDigitC (Char.ofNat (48 + d)) = true := by
  interval_cases d <;> decide

theorem digit_digitVal {d : Nat} (h : d < 10) :
    digitVal (Char.ofNat (48 + d)) = d := by
  interval_cases d <;> decide

theorem digitsToNat_append_digit (xs : Chars) (c : Char) :
    digitsToNat (xs ++ [c]) = digitsToNat xs * 10 + digitVal c := by
  simp [digitsToNat, List.foldl_append]

theorem natChars_spec : ∀ n : Nat,
    (∀ c ∈ natChars n, isDigitC c = true) ∧ natChars n ≠ [] := by
  intro n
  induction n using Nat.strong_induction_on with
  | _ n ih =>
    rw [natChars.eq_def]
    split
    · next h =>
      refine ⟨?_, by simp⟩
      intro c hc
      simp only [List.mem_singleton] at hc
      subst hc
      exact digit_isDigitC h
    · next h =>
      have hdiv : n / 10 < n := Nat.div_lt_self (by omega) (by omega)
      obtain ⟨ihd, ihne⟩ := ih (n / 10) hdiv
      refine ⟨?_, by simp⟩
      intro c hc
      rcases List.mem_append.1 hc with hc | hc
      · exact ihd c hc
      · simp only [List.mem_singleton] at hc
        subst hc
        exact digit_isDigitC (Nat.mod_lt n (by omega))

theorem digitsToNat_natChars : ∀ n : Nat, digitsToNat (natChars n) = n := by
  intro n
  induction n using Nat.strong_induction_on with
  | _ n ih =>
    rw [natChars.eq_def]
    split
    · next h =>
      show digitsToNat ([] ++ [Char.ofNat (48 + n)]) = n
      rw [digitsToNat_append_digit]
      simp [digitsToNat, digit_digitVal h]
    · next h =>
      rw [digitsToNat_append_digit, ih (n / 10) (Nat.div_lt_self (by omega)
        (by omega)), digit_digitVal (Nat.mod_lt n (by omega))]
      omega

theorem dropWhile_eq_self_of_all_not {p : Char → Bool} {s : Chars}
    (h : ∀ c ∈ s, p c = false) : s.dropWhile p = s := by
  cases s with
  | nil => rfl
  | cons c rest =>
    rw [List.dropWhile_cons, if_neg]
    simp [h c (by simp)]

theorem isPyWS_iff (c : Char) : isPyWS c = true ↔
    (c.toNat = 32 ∨ c.toNat = 9 ∨ c.toNat = 10 ∨ c.toNat = 13 ∨
      c.toNat = 11 ∨ c.toNat = 12) := by
  simp [isPyWS, Bool.or_eq_true, decide_eq_true_eq, or_assoc]

theorem pyStrip_eq_self_of_no_ws {s : Chars}
    (h : ∀ c ∈ s, isPyWS c = false) : pyStrip s = s := by
  rw [pyStrip, dropWhile_eq_self_of_all_not h,
    dropWhile_eq_self_of_all_not (by intro c hc
                                     exact h c (List.mem_reverse.1 hc)),
    List.reverse_reverse]

theorem pythonInt_natChars (n : Nat) : pythonInt (natChars n) = some (n : Int) := by
  obtain ⟨hdig, hne⟩ := natChars_spec n
  rw [pythonInt]
  rw [pyStrip_eq_self_of_no_ws (fun c hc => isDigitC_not_ws (hdig c hc))]
  rcases h : natChars n with _ | ⟨c, ds⟩
  · exact absurd h hne
  · have hc : isDigitC c = true := hdig c (by rw [h]; simp)
    rw [pythonIntCore]
    rw [if_neg (isDigitC_ne_plus hc), if_neg (isDigitC_ne_minus hc)]
    have hall : (c :: ds).all isDigitC = true := by
      rw [List.all_eq_true]
      intro x hx
      exact hdig x (by rw [h]; exact hx)
    rw [parseDigits, if_pos (by simp [hall])]
    rw [← h, digitsToNat_natChars]
    rfl

/-! ### Split and strip lemmas -/

/-- hasNN tests whether the string contains two consecutive newlines. -/
def hasNN : Chars → Bool
  | [] => false
  | [_] => false
  | c1 :: c2 :: rest =>
    if c1 = '\n' ∧ c2 = '\n' then true else hasNN (c2 :: rest)

theorem joinSep_cons_cons (sep l l2 : Chars) (ls : List Chars) :
    joinSep sep (l :: l2 :: ls) = l ++ sep ++ joinSep sep (l2 :: ls) := rfl

theorem joinSep_single (sep l : Chars) : joinSep sep [l] = l := rfl

theorem hasNN_of_no_nl : ∀ (p : Chars), '\n' ∉ p → hasNN p = false
  | [], _ => rfl
  | [_], _ => rfl
  | c1 :: c2 :: rest, h => by
    have h1 : c1 ≠ '\n' := fun hc => h (by simp [hc])
    rw [hasNN, if_neg (fun hand => h1 hand.1)]
    exact hasNN_of_no_nl (c2 :: rest) (fun hc => h (List.mem_cons_of_mem _ hc))

theorem splitNN_no_nn : ∀ (p : Chars), hasNN p = false → splitNN p = [p]
  | [], _ => rfl
  | [_], _ => rfl
  | c1 :: c2 :: rest, h => by
    rw [hasNN] at h
    by_cases hnn : c1 = '\n' ∧ c2 = '\n'
    · rw [if_pos hnn] at h
      exact absurd h (by simp)
    · rw [if_neg hnn] at h
      rw [splitNN, if_neg hnn, splitNN_no_nn (c2 :: rest) h]
      rfl

theorem splitNN_append : ∀ (p s : Chars), hasNN p = false →
    p.getLast? ≠ some '\n' →
    splitNN (p ++ '\n' :: '\n' :: s) = p :: splitNN s
  | [], s, _, _ => by
    rw [List.nil_append, splitNN, if_pos ⟨rfl, rfl⟩]
  | [c], s, _, hl => by
    have hc : c ≠ '\n' := by simpa using hl
    rw [List.cons_append, List.nil_append, splitNN,
      if_neg (fun hand => hc hand.1), splitNN, if_pos ⟨rfl, rfl⟩]
    rfl
  | c1 :: c2 :: rest, s, h, hl => by
    rw [hasNN] at h
    by_cases hnn : c1 = '\n' ∧ c2 = '\n'
    · rw [if_pos hnn] at h
      exact absurd h (by simp)
    · rw [if_neg hnn] at h
      have hl2 : (c2 :: rest).getLast? ≠ some '\n' := by
        rwa [List.getLast?_cons_cons] at hl
      have : (c1 :: c2 :: rest) ++ '\n' :: '\n' :: s =
          c1 :: c2 :: (rest ++ '\n' :: '\n' :: s) := by simp
      rw [this, splitNN, if_neg hnn]
      have : c2 :: (rest ++ '\n' :: '\n' :: s) =
          (c2 :: rest) ++ '\n' :: '\n' :: s := by simp
      rw [this, splitNN_append (c2 :: rest) s h hl2]
      rfl

theorem splitLines_no_nl : ∀ (l : Chars), '\n' ∉ l → splitLines l = [l]
  | [], _ => rfl
  | c :: rest, h => by
    have hc : c ≠ '\n' := fun hc => h (by simp [hc])
    rw [splitLines, if_neg hc,
      splitLines_no_nl rest (fun hm => h (List.mem_cons_of_mem _ hm))]
    rfl

theorem splitLines_append : ∀ (l s : Chars), '\n' ∉ l →
    splitLines (l ++ '\n' :: s) = l :: splitLines s
  | [], s, _ => by
    rw [List.nil_append, splitLines, if_pos rfl]
  | c :: rest, s, h => by
    have hc : c ≠ '\n' := fun hc => h (by simp [hc])
    rw [List.cons_append, splitLines, if_neg hc,
      splitLines_append rest s (fun hm => h (List.mem_cons_of_mem _ hm))]
    rfl

theorem splitLines_joinSep : ∀ (ls : List Chars), ls ≠ [] →
    (∀ l ∈ ls, '\n' ∉ l) → splitLines (joinSep ['\n'] ls) = ls
  | [], hne, _ => absurd rfl hne
  | [l], _, h => by
    rw [joinSep_single, splitLines_no_nl l (h l (by simp))]
  | l :: l2 :: ls, _, h => by
    rw [joinSep_cons_cons]
    have : l ++ ['\n'] ++ joinSep ['\n'] (l2 :: ls) =
        l ++ '\n' :: joinSep ['\n'] (l2 :: ls) := by simp
    rw [this, splitLines_append l _ (h l (by simp)),
      splitLines_joinSep (l2 :: ls) (List.cons_ne_nil _ _)
        (fun x hx => h x (List.mem_cons_of_mem _ hx))]

theorem joinSep_ne_nil (sep : Chars) : ∀ (ls : List Chars) (l0 : Chars),
    ls.head? = some l0 → l0 ≠ [] → joinSep sep ls ≠ []
  | [], l0, h, _ => by simp at h
  | [l], l0, h, hne => by
    simp only [List.head?_cons, Option.some.injEq] at h
    subst h
    rw [joinSep_single]
    exact hne
  | l :: l2 :: ls, l0, h, hne => by
    simp only [List.head?_cons, Option.some.injEq] at h
    subst h
    rw [joinSep_cons_cons]
    intro hcontra
    rcases List.append_eq_nil.1 (List.append_eq_nil.1 hcontra).1 with ⟨h1, -⟩
    exact hne h1

theorem joinSep_head? (sep : Chars) : ∀ (ls : List Chars) (l0 : Chars),
    ls.head? = some l0 → l0 ≠ [] →
    (joinSep sep ls).head? = l0.head?
  | [], l0, h, _ => by simp at h
  | [l], l0, h, _ => by
    simp only [List.head?_cons, Option.some.injEq] at h
    subst h
    rw [joinSep_single]
  | l :: l2 :: ls, l0, h, hne => by
    simp only [List.head?_cons, Option.some.injEq] at h
    subst h
    rw [joinSep_cons_cons, List.append_assoc, List.head?_append]
    cases hl : l.head? with
    | none => exact absurd (List.head?_eq_none_iff.1 hl) hne
    | some c => rfl

theorem joinSep_getLast? (sep : Chars) : ∀ (ls : List Chars) (lz : Chars),
    ls.getLast? = some lz → lz ≠ [] →
    (joinSep sep ls).getLast? = lz.getLast?
  | [], lz, h, _ => by simp at h
  | [l], lz, h, _ => by
    simp only [List.getLast?_singleton, Option.some.injEq] at h
    subst h
    rw [joinSep_single]
  | l :: l2 :: ls, lz, h, hne => by
    rw [List.getLast?_cons_cons] at h
    rw [joinSep_cons_cons, List.append_assoc, List.getLast?_append,
      List.getLast?_append, joinSep_getLast? sep (l2 :: ls) lz h hne]
    cases hl : lz.getLast? with
    | none => exact absurd (List.getLast?_eq_none_iff.1 hl) hne
    | some c => rfl

/-! ### Stripping a document with trailing whitespace -/

theorem head?_mem {α : Type} {l : List α} {c : α} (h : l.head? = some c) :
    c ∈ l := by
  cases l with
  | nil => simp at h
  | cons a rest =>
    simp only [List.head?_cons, Option.some.injEq] at h
    simp [← h]

theorem getLast?_mem {α : Type} {l : List α} {c : α}
    (h : l.getLast? = some c) : c ∈ l := by
  have := List.head?_reverse l
  rw [h] at this
  exact List.mem_reverse.1 (head?_mem this)

theorem getLast?_cons_eq {α : Type} (a : α) (l : List α) (h : l ≠ []) :
    (a :: l).getLast? = l.getLast? := by
  cases l with
  | nil => exact absurd rfl h
  | cons b rest => exact List.getLast?_cons_cons

theorem dropWhile_append_of_all {p : Char → Bool} : ∀ (a b : Chars),
    (∀ c ∈ a, p c = true) → (a ++ b).dropWhile p = b.dropWhile p
  | [], b, _ => rfl
  | c :: a', b, h => by
    rw [List.cons_append, List.dropWhile_cons, if_pos (h c (by simp))]
    exact dropWhile_append_of_all a' b (fun x hx => h x (by simp [hx]))

theorem dropWhile_eq_self_of_head? {p : Char → Bool} {l : Chars}
    (h : ∀ c, l.head? = some c → p c = false) : l.dropWhile p = l := by
  cases l with
  | nil => rfl
  | cons c rest =>
    rw [List.dropWhile_cons, if_neg]
    simp [h c rfl]

theorem pyStrip_append_ws (x tail : Chars) (hne : x ≠ [])
    (hhead : ∀ c, x.head? = some c → isPyWS c = false)
    (hlast : ∀ c, x.getLast? = some c → isPyWS c = false)
    (htail : ∀ c ∈ tail, isPyWS c = true) : pyStrip (x ++ tail) = x := by
  rw [pyStrip]
  have h1 : (x ++ tail).dropWhile isPyWS = x ++ tail := by
    apply dropWhile_eq_self_of_head?
    intro c hc
    cases x with
    | nil => exact absurd rfl hne
    | cons a x' =>
      rw [List.cons_append, List.head?_cons] at hc
      exact hhead c (by rw [List.head?_cons, ← hc])
  rw [h1, List.reverse_append,
    dropWhile_append_of_all tail.reverse x.reverse
      (fun c hc => htail c (List.mem_reverse.1 hc)),
    dropWhile_eq_self_of_head?
      (fun c hc => hlast c (by rwa [List.head?_reverse] at hc)),
    List.reverse_reverse]

theorem pyStrip_eq_self_of_ends (x : Chars) (hne : x ≠ [])
    (hhead : ∀ c, x.head? = some c → isPyWS c = false)
    (hlast : ∀ c, x.getLast? = some c → isPyWS c = false) :
    pyStrip x = x := by
  have := pyStrip_append_ws x [] hne hhead hlast (by simp)
  rwa [List.append_nil] at this

/-! ### Blocks containing no blank line -/

theorem hasNN_mid : ∀ (l t : Chars), '\n' ∉ l →
    (∀ c, t.head? = some c → c ≠ '\n') → hasNN t = false →
    hasNN (l ++ '\n' :: t) = false
  | [], t, _, hhead, ht => by
    rw [List.nil_append]
    cases t with
    | nil => rfl
    | cons c r =>
      have hc : c ≠ '\n' := hhead c rfl
      rw [hasNN, if_neg (fun hand => hc hand.2)]
      exact ht
  | [c], t, hl, hhead, ht => by
    have hc : c ≠ '\n' := fun h => hl (by simp [h])
    have hshape : [c] ++ '\n' :: t = c :: '\n' :: t := by simp
    rw [hshape, hasNN, if_neg (fun hand => hc hand.1)]
    have := hasNN_mid [] t (by simp) hhead ht
    rwa [List.nil_append] at this
  | c :: c' :: l', t, hl, hhead, ht => by
    have hc : c ≠ '\n' := fun h => hl (by simp [h])
    have hshape : (c :: c' :: l') ++ '\n' :: t =
        c :: c' :: (l' ++ '\n' :: t) := by simp
    rw [hshape, hasNN, if_neg (fun hand => hc hand.1)]
    have : c' :: (l' ++ '\n' :: t) = (c' :: l') ++ '\n' :: t := by simp
    rw [this]
    exact hasNN_mid (c' :: l') t
      (fun hm => hl (List.mem_cons_of_mem _ hm)) hhead ht

theorem hasNN_joinSep_lines : ∀ (ls : List Chars),
    (∀ l ∈ ls, l ≠ [] ∧ '\n' ∉ l) → hasNN (joinSep ['\n'] ls) = false
  | [], _ => rfl
  | [l], h => by
    rw [joinSep_single]
    exact hasNN_of_no_nl l (h l (by simp)).2
  | l :: l2 :: ls, h => by
    rw [joinSep_cons_cons]
    have hshape : l ++ ['\n'] ++ joinSep ['\n'] (l2 :: ls) =
        l ++ '\n' :: joinSep ['\n'] (l2 :: ls) := by simp
    rw [hshape]
    apply hasNN_mid l _ (h l (by simp)).2
    · intro c hc
      have hhd : (joinSep ['\n'] (l2 :: ls)).head? = l2.head? :=
        joinSep_head? ['\n'] (l2 :: ls) l2 rfl (h l2 (by simp)).1
      rw [hhd] at hc
      exact fun hcnl => (h l2 (by simp)).2 (hcnl ▸ head?_mem hc)
    · exact hasNN_joinSep_lines (l2 :: ls)
        (fun x hx => h x (List.mem_cons_of_mem _ hx))

/-! ### Facts about rendered well-formed blocks -/

theorem GoodBlock.lines_ok {b : RawBlock} (hb : GoodBlock b) :
    ∀ l ∈ natChars b.id :: b.timing :: b.textLines, l ≠ [] ∧ '\n' ∉ l := by
  intro l hl
  rcases hl with _ | ⟨_, hl⟩
  · obtain ⟨hdig, hne⟩ := natChars_spec b.id
    exact ⟨hne, fun hm => isDigitC_ne_nl (hdig _ hm) rfl⟩
  · rcases hl with _ | ⟨_, hl⟩
    · exact ⟨hb.2.1, hb.2.2.1⟩
    · exact hb.2.2.2.2.1 l hl

theorem renderBlock_ne_nil {b : RawBlock} (hb : GoodBlock b) :
    renderBlock b ≠ [] := by
  rw [renderBlock]
  exact joinSep_ne_nil ['\n'] _ (natChars b.id) rfl (natChars_spec b.id).2

theorem renderBlock_head_digit {b : RawBlock} (hb : GoodBlock b) :
    ∀ c, (renderBlock b).head? = some c → isDigitC c = true := by
  intro c hc
  rw [renderBlock,
    joinSep_head? ['\n'] (natChars b.id :: b.timing :: b.textLines)
      (natChars b.id) rfl (natChars_spec b.id).2] at hc
  exact (natChars_spec b.id).1 c (head?_mem hc)

theorem textLines_getLast?_eq {b : RawBlock} (hb : GoodBlock b) :
    b.textLines.getLast? = some (b.textLines.getLastD []) := by
  cases hl : b.textLines.getLast? with
  | none => exact absurd (List.getLast?_eq_none_iff.1 hl) hb.2.2.2.1
  | some z =>
    rw [List.getLastD_eq_getLast?, hl]
    rfl

theorem renderBlock_getLast? {b : RawBlock} (hb : GoodBlock b) :
    (renderBlock b).getLast? = (b.textLines.getLastD []).getLast? := by
  rw [renderBlock]
  apply joinSep_getLast? ['\n']
  · rw [getLast?_cons_eq _ _ (List.cons_ne_nil _ _),
      getLast?_cons_eq _ _ hb.2.2.2.1]
    exact textLines_getLast?_eq hb
  · exact (hb.2.2.2.2.1 _ (getLast?_mem (textLines_getLast?_eq hb))).1

theorem renderBlock_last_not_ws {b : RawBlock} (hb : GoodBlock b) :
    ∀ c, (renderBlock b).getLast? = some c → isPyWS c = false := by
  intro c hc
  rw [renderBlock_getLast? hb] at hc
  have := hb.2.2.2.2.2
  rw [hc] at this
  simpa using this

theorem renderBlock_last_ne_nl {b : RawBlock} (hb : GoodBlock b) :
    (renderBlock b).getLast? ≠ some '\n' := by
  intro hc
  have := renderBlock_last_not_ws hb '\n' hc
  exact absurd this (by decide)

theorem renderBlock_no_nn {b : RawBlock} (hb : GoodBlock b) :
    hasNN (renderBlock b) = false := by
  rw [renderBlock]
  exact hasNN_joinSep_lines _ hb.lines_ok

theorem splitLines_pyStrip_renderBlock {b : RawBlock} (hb : GoodBlock b) :
    splitLines (pyStrip (renderBlock b)) =
      natChars b.id :: b.timing :: b.textLines := by
  rw [pyStrip_eq_self_of_ends _ (renderBlock_ne_nil hb)
    (fun c hc => isDigitC_not_ws (renderBlock_head_digit hb c hc))
    (renderBlock_last_not_ws hb)]
  rw [renderBlock]
  exact splitLines_joinSep _ (by simp)
    (fun l hl => (hb.lines_ok l hl).2)

/-! ### Parsing a rendered document -/

theorem parseBlocks_render : ∀ (bs : List RawBlock),
    (∀ b ∈ bs, GoodBlock b) →
    parseBlocks (bs.map renderBlock) = .ok (bs.map toSubtitle)
  | [], _ => rfl
  | b :: bs, h => by
    have hb : GoodBlock b := h b (by simp)
    rw [List.map_cons, parseBlocks, splitLines_pyStrip_renderBlock hb]
    rcases htx : b.textLines with _ | ⟨t0, ts⟩
    · exact absurd htx hb.2.2.2.1
    · simp only [pythonInt_natChars b.id,
        parseBlocks_render bs (fun x hx => h x (List.mem_cons_of_mem _ hx)),
        Except.map, List.map_cons]
      rw [toSubtitle, htx]

theorem splitNN_joinSepNN : ∀ (ps : List Chars), ps ≠ [] →
    (∀ p ∈ ps, hasNN p = false ∧ p.getLast? ≠ some '\n') →
    splitNN (joinSep ['\n', '\n'] ps) = ps
  | [], hne, _ => absurd rfl hne
  | [p], _, h => by
    rw [joinSep_single]
    exact splitNN_no_nn p (h p (by simp)).1
  | p :: p2 :: ps, _, h => by
    rw [joinSep_cons_cons]
    have hshape : p ++ ['\n', '\n'] ++ joinSep ['\n', '\n'] (p2 :: ps) =
        p ++ '\n' :: '\n' :: joinSep ['\n', '\n'] (p2 :: ps) := by simp
    rw [hshape, splitNN_append p _ (h p (by simp)).1 (h p (by simp)).2,
      splitNN_joinSepNN (p2 :: ps) (List.cons_ne_nil _ _)
        (fun x hx => h x (List.mem_cons_of_mem _ hx))]

theorem pyStrip_renderDoc (bs : List RawBlock) (tail : Chars)
    (hne : bs ≠ []) (hgood : ∀ b ∈ bs, GoodBlock b)
    (htail : tail.all isPyWS = true) :
    pyStrip (renderDoc bs ++ tail) = renderDoc bs := by
  rcases hbs : bs with _ | ⟨b0, bs'⟩
  · exact absurd hbs hne
  · have hb0 : GoodBlock b0 := hgood b0 (by rw [hbs]; simp)
    have hhead0 : (List.map renderBlock (b0 :: bs')).head? =
        some (renderBlock b0) := by simp
    have hlastb : ∃ bz, bs.getLast? = some bz ∧ bz ∈ bs := by
      cases hz : bs.getLast? with
      | none => rw [List.getLast?_eq_none_iff.1 hz] at hbs; cases hbs
      | some z => exact ⟨z, rfl, getLast?_mem hz⟩
    obtain ⟨bz, hbz, hbzmem⟩ := hlastb
    have hbz2 : GoodBlock bz := hgood bz hbzmem
    rw [← hbs]
    apply pyStrip_append_ws
    · rw [renderDoc]
      apply joinSep_ne_nil ['\n', '\n'] _ (renderBlock b0)
      · rw [hbs]; simp
      · exact renderBlock_ne_nil hb0
    · intro c hc
      rw [renderDoc,
        joinSep_head? ['\n', '\n'] _ (renderBlock b0) (by rw [hbs]; simp)
          (renderBlock_ne_nil hb0)] at hc
      exact isDigitC_not_ws (renderBlock_head_digit hb0 c hc)
    · intro c hc
      rw [renderDoc,
        joinSep_getLast? ['\n', '\n'] _ (renderBlock bz)
          (by rw [List.getLast?_map, hbz]; rfl)
          (renderBlock_ne_nil hbz2)] at hc
      exact renderBlock_last_not_ws hbz2 c hc
    · intro c hc
      have := List.all_eq_true.1 htail c hc
      simpa using this

theorem parse_srt_renderDoc (bs : List RawBlock) (tail : Chars)
    (hne : bs ≠ []) (hgood : ∀ b ∈ bs, GoodBlock b)
    (htail : tail.all isPyWS = true) :
    parse_srt (renderDoc bs ++ tail) = .ok (bs.map toSubtitle) := by
  rw [parse_srt, pyStrip_renderDoc bs tail hne hgood htail, renderDoc,
    splitNN_joinSepNN (bs.map renderBlock)
      (by simpa using hne)
      (by intro p hp
          obtain ⟨b, hbmem, rfl⟩ := List.mem_map.1 hp
          exact ⟨renderBlock_no_nn (hgood b hbmem),
            renderBlock_last_ne_nl (hgood b hbmem)⟩)]
  exact parseBlocks_render bs hgood

/-! ### Serializing a parsed rendered document -/

theorem flatten_map_append_sep (sep : Chars) : ∀ (ps : List Chars),
    ps ≠ [] →
    (ps.map (fun p => p ++ sep)).flatten = joinSep sep ps ++ sep
  | [], hne => absurd rfl hne
  | [p], _ => by simp [joinSep_single]
  | p :: p2 :: ps, _ => by
    rw [List.map_cons, List.flatten_cons,
      flatten_map_append_sep sep (p2 :: ps) (List.cons_ne_nil _ _),
      joinSep_cons_cons]
    simp [List.append_assoc]

theorem specSerializeBlock_toSubtitle (b : RawBlock)
    (ht : b.textLines ≠ []) :
    specSerializeBlock
      { toSubtitle b with translated_text := (toSubtitle b).original_text } =
      renderBlock b ++ ['\n', '\n'] := by
  rcases htx : b.textLines with _ | ⟨t0, ts⟩
  · exact absurd htx ht
  · simp only [specSerializeBlock, toSubtitle, renderBlock, htx,
      joinSep_cons_cons, intChars, List.append_assoc, List.singleton_append]
    simp

theorem export_srt_renderDoc (bs : List RawBlock) (hne : bs ≠ [])
    (hgood : ∀ b ∈ bs, GoodBlock b) :
    export_srt ((bs.map toSubtitle).map
        (fun s => { s with translated_text := s.original_text })) =
      renderDoc bs ++ ['\n', '\n'] := by
  rw [export_srt_eq_specSerialize, specSerialize]
  have hlist : ((bs.map toSubtitle).map
        (fun s => { s with translated_text := s.original_text })).map
        specSerializeBlock =
      (bs.map renderBlock).map (fun p => p ++ ['\n', '\n']) := by
    rw [List.map_map, List.map_map, List.map_map]
    apply List.map_congr_left
    intro b hbmem
    exact specSerializeBlock_toSubtitle b (hgood b hbmem).2.2.2.1
  rw [hlist, flatten_map_append_sep ['\n', '\n'] (bs.map renderBlock)
      (by simpa using hne), renderDoc]

/-! ### C1: round-trip through parse and serialize -/

/-- Claim C1: for any well-formed input document, serializing the result of
parsing it, after setting every entry's translated_text equal to its
source_text, reproduces the original document up to trailing-whitespace
normalization: the output is the document stripped of trailing whitespace,
re-terminated with the canonical final newline and blank line. -/
theorem claim_C1_roundtrip (doc : Chars) (h : WellFormedDoc doc) :
    ∃ subs, parse_srt doc = .ok subs ∧
      export_srt (subs.map
          (fun s => { s with translated_text := s.original_text })) =
        pyStrip doc ++ ['\n', '\n'] := by
  obtain ⟨bs, tail, hne, hgood, htail, rfl⟩ := h
  refine ⟨bs.map toSubtitle, ?_, ?_⟩
  · exact parse_srt_renderDoc bs tail hne hgood htail
  · rw [pyStrip_renderDoc bs tail hne hgood htail]
    exact export_srt_renderDoc bs hne hgood

/-- demoBlocks is the two-block scenario document of the specification. -/
def demoBlocks : List RawBlock :=
  [⟨1, "00:00:01,000 --> 00:00:02,000".toList, ["Hello".toList]⟩,
   ⟨2, "00:00:03,000 --> 00:00:04,000".toList, ["World".toList]⟩]

theorem claim_C1_witness :
    WellFormedDoc (renderDoc demoBlocks ++ ['\n', '\n']) ∧
    (∃ subs, parse_srt (renderDoc demoBlocks ++ ['\n', '\n']) = .ok subs ∧
      export_srt (subs.map
          (fun s => { s with translated_text := s.original_text })) =
        pyStrip (renderDoc demoBlocks ++ ['\n', '\n']) ++ ['\n', '\n']) := by
  have hwf : WellFormedDoc (renderDoc demoBlocks ++ ['\n', '\n']) :=
    ⟨demoBlocks, ['\n', '\n'], by decide, by decide, by decide, rfl⟩
  exact ⟨hwf, claim_C1_roundtrip _ hwf⟩

/-! ### C2: order preservation and verbatim id re-emission -/

/-- Claim C2: parsing a rendered document produces one entry per block, in
the order the blocks occur in the source text, with each entry's sequence_id
equal to its block's id whatever its numeric value (gaps and out-of-order ids
included, since the blocks' ids are unconstrained here); and serialization
emits each entry's own id at the entry's position, independent of that
position. -/
theorem claim_C2_order_and_ids (bs : List RawBlock) (tail : Chars)
    (hne : bs ≠ []) (hgood : ∀ b ∈ bs, GoodBlock b)
    (htail : tail.all isPyWS = true) :
    parse_srt (renderDoc bs ++ tail) = .ok (bs.map toSubtitle) ∧
    (bs.map toSubtitle).map Subtitle.id = bs.map (fun b => (b.id : Int)) ∧
    (∀ subs : List Subtitle, export_srt subs =
      (subs.map (fun s => intChars s.id ++ '\n' ::
        (s.timing ++ '\n' :: (s.translated_text ++ ['\n', '\n'])))).flatten) := by
  refine ⟨parse_srt_renderDoc bs tail hne hgood htail, ?_, ?_⟩
  · rw [List.map_map]
    apply List.map_congr_left
    intro b _
    rfl
  · intro subs
    have h := foldl_append_eq_flatten
      (fun s => intChars s.id ++ '\n' ::
        (s.timing ++ '\n' :: (s.translated_text ++ ['\n', '\n']))) subs []
    rw [export_srt, h, List.nil_append]

theorem claim_C2_witness :
    (demoBlocks ≠ [] ∧ (∀ b ∈ demoBlocks, GoodBlock b) ∧
      (['\n', '\n'] : Chars).all isPyWS = true) ∧
    (parse_srt (renderDoc demoBlocks ++ ['\n', '\n']) =
        .ok (demoBlocks.map toSubtitle) ∧
      (demoBlocks.map toSubtitle).map Subtitle.id =
        demoBlocks.map (fun b => (b.id : Int)) ∧
      (∀ subs : List Subtitle, export_srt subs =
        (subs.map (fun s => intChars s.id ++ '\n' ::
          (s.timing ++ '\n' ::
            (s.translated_text ++ ['\n', '\n'])))).flatten)) := by
  refine ⟨⟨by decide, by decide, by decide⟩, ?_⟩
  exact claim_C2_order_and_ids demoBlocks ['\n', '\n'] (by decide) (by decide)
    (by decide)

end SubTrans
